import Mathlib

/-!
Verification of the gparallel parallel-command runner against its
natural-language specification.

The Go sources are shallowly embedded: byte slices become lists of
naturals (each < 256 where the code stores actual bytes), machine
integers become Nat/Int with explicit truncation (mod 2 ^ 32) where the
code converts to a fixed-width type, and every place where the Go code
panics or exits is modelled with Option (none = panic/exit).

Components embedded below, in order:
  1. the Chunked Output Store (src/memory.go): appendChunk / newChunk /
     getNextChunk, the per-chunk layout [u32 length][u8 fd][payload];
  2. the Foreground Replay Scheduler (src/main.go): writeOut,
     toForeground and displaySequentially collapsed into a sequential
     fold producing the terminal write trace and the aggregate exit code;
  3. the buffer/live submission appendOrWrite (src/runner.go);
  4. the recursive-concurrency-limiter client release client.del
     (src/recursivetasklimit.go and src/unnamed/part_000);
  5. the CSI dispatcher (src/escapesequences.go): numericParams and
     the per-final-character dispatch;
  6. the limiter server bring-up (src/unnamed/part_000 createLimitServer
     / serveClients) together with the -P validation in src/args.go;
  7. the SGR attribute list of the virtual terminal screen
     (src/terminalscreen/line.go and src/terminalscreen/screen.go).
-/

namespace GParallel

/-! ## 1. Chunked Output Store (src/memory.go)

A slab (the field Output.parts) is a flat byte log.  appendChunk writes
a header of four little-endian length bytes (binary.LittleEndian.PutUint32
of uint32(len(data) + 1)), then the fd tag byte, then the payload.
getNextChunk reads chunks back starting at an offset. -/

/-- putUint32LE models binary.LittleEndian.PutUint32 applied to
uint32(v): the Go conversion truncates v mod 2 ^ 32 and the four stored
bytes are the little-endian digits of that truncated value. -/
def putUint32LE (v : Nat) : List Nat :=
  [v % 256, v / 256 % 256, v / 65536 % 256, v / 16777216 % 256]

/-- getUint32LE models binary.LittleEndian.Uint32 on the first four
bytes of a slice: b0 + b1<<8 + b2<<16 + b3<<24. -/
def getUint32LE (bs : List Nat) : Nat :=
  bs.getD 0 0 + 256 * bs.getD 1 0 + 65536 * bs.getD 2 0 + 16777216 * bs.getD 3 0

/-- encodeChunk is the slab growth produced by one call of
Output.appendChunk(dataFromFd, data) via newChunk(len(data)+1): the
four length-header bytes for chunkSize = len(data) + 1, then the tag
byte (a Go byte, hence mod 256), then the payload bytes. -/
def encodeChunk (dataFromFd : Nat) (data : List Nat) : List Nat :=
  putUint32LE (data.length + 1) ++ dataFromFd % 256 :: data

/-- appendAllChunks: the slab obtained by starting from an empty
Output.parts and calling appendChunk once for every (tag, payload)
pair, in order.  (newChunk only ever extends parts at the end; the
capacity-doubling mustRealloc is invisible at the level of values.) -/
def appendAllChunks (s : List (Nat × List Nat)) : List Nat :=
  s.foldl (fun parts p => parts ++ encodeChunk p.1 p.2) []

/-- drainGo is the loop of writeOut over getNextChunk, expressed on the
suffix of parts that starts at the current offset, with an explicit
structural fuel (one unit per getNextChunk call; drainSlab below always
supplies enough).  Mirroring getNextChunk:
  - offset at or past the end of parts (empty suffix): ok = false, stop;
  - fewer than four remaining bytes: binary.LittleEndian.Uint32 panics
    (index out of range) = none;
  - a stored chunk size of zero: the chunk slice is empty and
    getNextChunk hits log.Panicf under the len(chunk) <= 0 check = none;
  - chunk size larger than the remaining bytes: the slice expression
    out.parts[start : start+chunkSize] panics = none;
  - otherwise yield (chunk[0], chunk[1:]) and continue past the chunk. -/
def drainGo : Nat → List Nat → Option (List (Nat × List Nat))
  | fuel, bs =>
    if bs.isEmpty then some []
    else
      match fuel with
      | 0 => none
      | fuel + 1 =>
        if bs.length < 4 then none
        else
          let chunkSize := getUint32LE (bs.take 4)
          let rest := bs.drop 4
          if chunkSize = 0 then none
          else if rest.length < chunkSize then none
          else
            (drainGo fuel (rest.drop chunkSize)).map
              (fun tail => ((rest.take chunkSize).headD 0, (rest.take chunkSize).tail) :: tail)

/-- drainSlab: drain a whole slab from offset 0, as writeOut does.  The
fuel parts.length is always sufficient because every getNextChunk call
consumes at least five bytes. -/
def drainSlab (parts : List Nat) : Option (List (Nat × List Nat)) :=
  drainGo parts.length parts

theorem getUint32LE_putUint32LE (v : Nat) (h : v < 4294967296) :
    getUint32LE (putUint32LE v) = v := by
  simp [putUint32LE, getUint32LE]
  omega

theorem putUint32LE_length (v : Nat) : (putUint32LE v).length = 4 := by
  simp [putUint32LE]

/-- Fuel irrelevance: any fuel at least the length of the suffix gives
the same drain result. -/
theorem drainGo_fuel (fuel₁ : Nat) : ∀ fuel₂ bs,
    bs.length ≤ fuel₁ → bs.length ≤ fuel₂ →
    drainGo fuel₁ bs = drainGo fuel₂ bs := by
  induction fuel₁ with
  | zero =>
    intro fuel₂ bs h1 _
    match bs with
    | [] => cases fuel₂ <;> rfl
    | b :: bs => simp at h1
  | succ n ih =>
    intro fuel₂ bs h1 h2
    match bs with
    | [] => cases fuel₂ <;> rfl
    | b :: bs =>
      match fuel₂ with
      | 0 => simp at h2
      | m + 1 =>
        show drainGo (n + 1) (b :: bs) = drainGo (m + 1) (b :: bs)
        rw [drainGo, drainGo]
        simp only [List.isEmpty_cons]
        split
        · rfl
        · split
          · rfl
          · split
            · rfl
            · rw [ih]
              · simp only [List.length_drop, List.length_cons] at *
                omega
              · simp only [List.length_drop, List.length_cons] at *
                omega

theorem drainSlab_nil : drainSlab [] = some [] := rfl

/-- Draining one appended chunk off the front of a slab: the header
round-trips through the u32 conversion as long as chunkSize fits, the
tag and payload are recovered, and draining continues on the remainder
with one unit of fuel spent. -/
theorem drainGo_encodeChunk (fuel t : Nat) (d rest : List Nat)
    (hsize : d.length + 1 < 4294967296) :
    drainGo (fuel + 1) (encodeChunk t d ++ rest) =
      (drainGo fuel rest).map (fun tail => (t % 256, d) :: tail) := by
  have hhdr : (putUint32LE (d.length + 1)).length = 4 := putUint32LE_length _
  have hbs : encodeChunk t d ++ rest =
      putUint32LE (d.length + 1) ++ ((t % 256 :: d) ++ rest) := by
    simp [encodeChunk]
  rw [drainGo, hbs]
  have hne : (putUint32LE (d.length + 1) ++ (t % 256 :: d ++ rest)).isEmpty = false := by
    simp [putUint32LE]
  rw [hne]
  simp only [Bool.false_eq_true, if_false]
  have hlen : (putUint32LE (d.length + 1) ++ (t % 256 :: d ++ rest)).length =
      d.length + rest.length + 5 := by
    simp [putUint32LE]
  rw [if_neg (by omega : ¬ (putUint32LE (d.length + 1) ++ (t % 256 :: d ++ rest)).length < 4)]
  have htake : (putUint32LE (d.length + 1) ++ (t % 256 :: d ++ rest)).take 4 =
      putUint32LE (d.length + 1) := List.take_left' hhdr
  have hdrop : (putUint32LE (d.length + 1) ++ (t % 256 :: d ++ rest)).drop 4 =
      t % 256 :: d ++ rest := List.drop_left' hhdr
  rw [htake, hdrop, getUint32LE_putUint32LE _ hsize]
  rw [if_neg (by omega : ¬ d.length + 1 = 0)]
  rw [if_neg (by simp : ¬ (t % 256 :: d ++ rest).length < d.length + 1)]
  have htake2 : (t % 256 :: d ++ rest).take (d.length + 1) = t % 256 :: d := by
    have : t % 256 :: d ++ rest = (t % 256 :: d) ++ rest := by simp
    rw [this, List.take_left' (by simp)]
  have hdrop2 : (t % 256 :: d ++ rest).drop (d.length + 1) = rest := by
    have : t % 256 :: d ++ rest = (t % 256 :: d) ++ rest := by simp
    rw [this, List.drop_left' (by simp)]
  rw [htake2, hdrop2]
  rfl

theorem drainSlab_encodeChunk (t : Nat) (d rest : List Nat)
    (hsize : d.length + 1 < 4294967296) :
    drainSlab (encodeChunk t d ++ rest) =
      (drainSlab rest).map (fun tail => (t % 256, d) :: tail) := by
  have hlen : (encodeChunk t d ++ rest).length = (d.length + 4 + rest.length) + 1 := by
    simp [encodeChunk, putUint32LE]
    omega
  rw [drainSlab, hlen, drainGo_encodeChunk _ _ _ _ hsize]
  rw [drainGo_fuel (d.length + 4 + rest.length) rest.length rest (by omega) (by omega)]
  rfl

theorem appendAllChunks_acc (s : List (Nat × List Nat)) : ∀ acc : List Nat,
    s.foldl (fun parts p => parts ++ encodeChunk p.1 p.2) acc = acc ++ appendAllChunks s := by
  induction s with
  | nil => intro acc; simp [appendAllChunks]
  | cons p s ih =>
    intro acc
    simp only [appendAllChunks, List.foldl_cons, List.nil_append] at *
    rw [ih, ih (encodeChunk p.1 p.2), List.append_assoc]

theorem appendAllChunks_cons (p : Nat × List Nat) (s : List (Nat × List Nat)) :
    appendAllChunks (p :: s) = encodeChunk p.1 p.2 ++ appendAllChunks s := by
  simp only [appendAllChunks, List.foldl_cons, List.nil_append]
  exact appendAllChunks_acc s _

/-- Round trip for the chunked store: draining a slab built from a list
of (tag, payload) pairs recovers the pairs in order, as long as each
tag is a byte and each payload's length fits the u32 length header. -/
theorem drainSlab_appendAllChunks (s : List (Nat × List Nat))
    (h : ∀ p ∈ s, p.1 < 256 ∧ p.2.length + 1 < 4294967296) :
    drainSlab (appendAllChunks s) = some s := by
  induction s with
  | nil => rfl
  | cons p s ih =>
    obtain ⟨hp, hs⟩ : (p.1 < 256 ∧ p.2.length + 1 < 4294967296) ∧
        ∀ q ∈ s, q.1 < 256 ∧ q.2.length + 1 < 4294967296 := by
      constructor
      · exact h p (List.mem_cons_self _ _)
      · intro q hq; exact h q (List.mem_cons_of_mem _ hq)
    rw [appendAllChunks_cons, drainSlab_encodeChunk _ _ _ hp.2, ih hs]
    simp [Nat.mod_eq_of_lt hp.1]

theorem drainGo_zero_header (fuel : Nat) (bs : List Nat)
    (hne : bs.isEmpty = false) (hlen : ¬ bs.length < 4)
    (hz : getUint32LE (bs.take 4) = 0) :
    drainGo (fuel + 1) bs = none := by
  rw [drainGo, hne]
  simp only [Bool.false_eq_true, if_false]
  rw [if_neg hlen]
  simp [hz]

/-- c2BigPayload: a payload one byte short of 2 ^ 32; together with the
tag byte the chunk size is exactly 2 ^ 32, which uint32(chunkSize)
truncates to 0. -/
def c2BigPayload : List Nat := List.replicate 4294967295 0

/-- C2 (counterexample): the round-trip law fails as universally stated.
Appending a single pair whose payload has 2 ^ 32 - 1 bytes stores a
chunk whose u32 length header is uint32(2 ^ 32) = 0; getNextChunk then
reads an empty chunk and panics (modelled as none), so draining does not
return the appended sequence. -/
theorem c2_chunked_store_round_trip_counterexample :
    drainSlab (appendAllChunks [(1, c2BigPayload)]) ≠ some [(1, c2BigPayload)] := by
  have hlen : c2BigPayload.length = 4294967295 := List.length_replicate _ _
  have henc : appendAllChunks [(1, c2BigPayload)] =
      putUint32LE 4294967296 ++ 1 % 256 :: c2BigPayload := by
    rw [appendAllChunks_cons]
    simp only [appendAllChunks, List.foldl_nil, List.append_nil, encodeChunk, hlen]
  have hput : putUint32LE 4294967296 = [0, 0, 0, 0] := by norm_num [putUint32LE]
  have hL : ([0, 0, 0, 0] ++ 1 % 256 :: c2BigPayload).length = 4294967299 + 1 := by
    have h2 : (1 % 256 :: c2BigPayload).length = c2BigPayload.length + 1 :=
      List.length_cons _ _
    rw [List.length_append, show ([0, 0, 0, 0] : List Nat).length = 4 from rfl, h2, hlen]
  have hbig : drainSlab (appendAllChunks [(1, c2BigPayload)]) = none := by
    rw [henc, hput, drainSlab, hL]
    apply drainGo_zero_header
    · rfl
    · rw [hL]; omega
    · rfl
  rw [hbig]
  intro hc
  exact Option.noConfusion hc

/-- C2 (amended): for every finite sequence s of (fd-tag, payload)
pairs in the store's domain — tags are bytes and each payload is
shorter than 2 ^ 32 - 1 bytes, so that chunkSize = len(payload) + 1
fits the u32 length header — appending every element of s to an empty
Chunked Output Store and draining yields exactly s: same tags, same
payload bytes, in append order. -/
theorem c2_chunked_store_round_trip (s : List (Nat × List Nat))
    (h : ∀ p ∈ s, p.1 < 256 ∧ p.2.length + 1 < 4294967296) :
    drainSlab (appendAllChunks s) = some s :=
  drainSlab_appendAllChunks s h

theorem c2_chunked_store_round_trip_witness :
    (∀ p ∈ [((1 : Nat), [104, 105]), (2, [33])],
        p.1 < 256 ∧ p.2.length + 1 < 4294967296)
    ∧ drainSlab (appendAllChunks [((1 : Nat), [104, 105]), (2, [33])]) =
        some [((1 : Nat), [104, 105]), (2, [33])] :=
  ⟨by decide, c2_chunked_store_round_trip _ (by decide)⟩

/-- C9 (counterexample): the claim says a chunk with an empty payload
panics rather than being yielded.  In the code the panic check is
len(chunk) <= 0 where chunk includes the fd-tag byte, so a chunk
appended with an empty payload has length 1 and is yielded normally,
with its empty payload. -/
theorem c9_drain_nonempty_counterexample :
    drainSlab (appendAllChunks [((1 : Nat), ([] : List Nat))]) = some [(1, [])] := by
  decide

/-- C9 (amended): drain walks the slab front-to-back; the panic in
getNextChunk fires on a chunk whose stored length is zero, not on an
empty payload.  appendChunk always stores chunkSize = len(payload) + 1,
so for a slab built by appends whose chunk sizes fit the u32 header,
drain never panics — and it may yield pairs with empty payloads. -/
theorem c9_drain_append_built_no_panic (s : List (Nat × List Nat))
    (h : ∀ p ∈ s, p.1 < 256 ∧ p.2.length + 1 < 4294967296) :
    (drainSlab (appendAllChunks s)).isSome = true := by
  rw [drainSlab_appendAllChunks s h]
  rfl

theorem c9_drain_append_built_no_panic_witness :
    (∀ p ∈ [((2 : Nat), ([] : List Nat)), (1, [104])],
        p.1 < 256 ∧ p.2.length + 1 < 4294967296)
    ∧ (drainSlab (appendAllChunks [((2 : Nat), ([] : List Nat)), (1, [104])])).isSome = true :=
  ⟨by decide, c9_drain_append_built_no_panic _ (by decide)⟩

/-! ## Recursive concurrency limiter: client release
(src/recursivetasklimit.go client.del, identical in structure to
src/unnamed/part_000)

The client keeps an in-memory queue of ProcessQueueData entries, one
per spawned child, each holding the child handle, an optional open
connection to the limit server, and an optional dial/read cancellation
handle.  del(zombieProcess) runs under the client mutex:
  - queue[0] on an empty queue, the assert that the head entry has no
    connection, and a findInQueue miss all panic (modelled as none);
  - toClose is queue[1] when the reaped child is the head and a next
    entry exists, else the first queue entry whose process is the
    reaped child;
  - if toClose has an open connection, one release byte (0x02) is
    written on it and it is closed (conn becomes nil); otherwise, if it
    has a cancellation handle, the handle is invoked;
  - finally the reaped child's entry is removed from the queue
    (slices.Delete at its first index). -/

/-- QueueEntry: one ProcessQueueData, identifying the process by pid
and recording whether conn and cancel are non-nil. -/
structure QueueEntry where
  pid : Nat
  conn : Bool
  cancel : Bool
deriving DecidableEq

/-- DelAction: the observable signal made by one del call. -/
inductive DelAction where
  | releaseByteAndClose (pid : Nat)
  | cancelDial (pid : Nat)
  | noSignal (pid : Nat)
deriving DecidableEq

/-- findInQueue: the linear scan for the first entry whose
processResult is the given process; returns its index and the entry
(none models the log.Panicf on a miss). -/
def findInQueue : List QueueEntry → Nat → Option (Nat × QueueEntry)
  | [], _ => none
  | e :: es, z =>
    if e.pid = z then some (0, e)
    else (findInQueue es z).map (fun iq => (iq.1 + 1, iq.2))

/-- mkDelAction: what del does to the chosen entry: write the release
byte and close when it has an open connection, else invoke its
cancellation handle when present, else nothing observable. -/
def mkDelAction (e : QueueEntry) : DelAction :=
  if e.conn then DelAction.releaseByteAndClose e.pid
  else if e.cancel then DelAction.cancelDial e.pid
  else DelAction.noSignal e.pid

/-- clientDel: the body of client.del under the mutex. -/
def clientDel (queue : List QueueEntry) (zombie : Nat) :
    Option (DelAction × List QueueEntry) :=
  match queue with
  | [] => none
  | q0 :: rest =>
    if q0.conn then none
    else
      let toClose? : Option (Nat × QueueEntry) :=
        if zombie = q0.pid ∧ 2 ≤ (q0 :: rest).length then
          ((q0 :: rest)[1]?).map (fun e => (1, e))
        else findInQueue (q0 :: rest) zombie
      match toClose? with
      | none => none
      | some (ti, e) =>
        let q1 :=
          if e.conn then (q0 :: rest).set ti { e with conn := false }
          else q0 :: rest
        match findInQueue q1 zombie with
        | none => none
        | some zi => some (mkDelAction e, q1.eraseIdx zi.1)

theorem findInQueue_some : ∀ (q : List QueueEntry) (z : Nat) (i : Nat) (e : QueueEntry),
    findInQueue q z = some (i, e) → e.pid = z ∧ q[i]? = some e := by
  intro q
  induction q with
  | nil => intro z i e h; cases h
  | cons a q ih =>
    intro z i e h
    rw [findInQueue] at h
    by_cases ha : a.pid = z
    · rw [if_pos ha] at h
      injection h with h
      injection h with h1 h2
      subst h2
      exact ⟨ha, by rw [← h1]; simp⟩
    · rw [if_neg ha] at h
      cases hf : findInQueue q z with
      | none => rw [hf] at h; cases h
      | some iq =>
        rw [hf] at h
        injection h with h
        injection h with h1 h2
        subst h2
        obtain ⟨he, hget⟩ := ih z iq.1 iq.2 hf
        refine ⟨he, ?_⟩
        rw [← h1]
        simpa using hget

theorem findInQueue_isSome : ∀ (q : List QueueEntry) (z : Nat),
    z ∈ q.map QueueEntry.pid → (findInQueue q z).isSome = true := by
  intro q
  induction q with
  | nil => intro z hz; cases hz
  | cons a q ih =>
    intro z hz
    rw [findInQueue]
    by_cases ha : a.pid = z
    · rw [if_pos ha]; rfl
    · rw [if_neg ha]
      rcases List.mem_cons.mp hz with hz | hz
      · exact absurd hz.symm ha
      · have hs := ih z hz
        cases hf : findInQueue q z with
        | none => rw [hf] at hs; exact Bool.noConfusion hs
        | some iq => rfl

theorem findInQueue_erase : ∀ (q : List QueueEntry) (z : Nat) (i : Nat) (e : QueueEntry),
    findInQueue q z = some (i, e) →
    (q.eraseIdx i).map QueueEntry.pid = (q.map QueueEntry.pid).erase z := by
  intro q
  induction q with
  | nil => intro z i e h; cases h
  | cons a q ih =>
    intro z i e h
    rw [findInQueue] at h
    by_cases ha : a.pid = z
    · rw [if_pos ha] at h
      injection h with h
      injection h with h1 h2
      rw [← h1, List.eraseIdx_cons_zero, List.map_cons, ← ha, List.erase_cons_head]
    · rw [if_neg ha] at h
      cases hf : findInQueue q z with
      | none => rw [hf] at h; cases h
      | some iq =>
        rw [hf] at h
        injection h with h
        injection h with h1 h2
        rw [← h1]
        rw [List.eraseIdx_cons_succ, List.map_cons, List.map_cons]
        rw [List.erase_cons_tail]
        · rw [ih z iq.1 iq.2 hf]
        · simp [ha]

theorem map_pid_set : ∀ (q : List QueueEntry) (ti : Nat) (e e2 : QueueEntry),
    q[ti]? = some e → e2.pid = e.pid →
    (q.set ti e2).map QueueEntry.pid = q.map QueueEntry.pid := by
  intro q
  induction q with
  | nil => intro ti e e2 h _; simp at h
  | cons a q ih =>
    intro ti e e2 h hp
    cases ti with
    | zero =>
      rw [List.getElem?_cons_zero] at h
      injection h with h
      rw [List.set_cons_zero, List.map_cons, List.map_cons, hp, h]
    | succ n =>
      rw [List.getElem?_cons_succ] at h
      rw [List.set_cons_succ, List.map_cons, List.map_cons, ih n e e2 h hp]

theorem mem_of_getElem?_entry : ∀ (q : List QueueEntry) (i : Nat) (e : QueueEntry),
    q[i]? = some e → e ∈ q := by
  intro q
  induction q with
  | nil => intro i e h; simp at h
  | cons a q ih =>
    intro i e h
    cases i with
    | zero =>
      rw [List.getElem?_cons_zero] at h
      injection h with h
      exact h ▸ List.mem_cons_self _ _
    | succ n =>
      rw [List.getElem?_cons_succ] at h
      exact List.mem_cons_of_mem _ (ih n e h)

theorem mkDelAction_conn (e : QueueEntry) (h : e.conn = true) :
    mkDelAction e = DelAction.releaseByteAndClose e.pid := by
  rw [mkDelAction, if_pos h]

theorem mkDelAction_cancel (e : QueueEntry) (h1 : e.conn = false) (h2 : e.cancel = true) :
    mkDelAction e = DelAction.cancelDial e.pid := by
  rw [mkDelAction, if_neg (by rw [h1]; exact Bool.false_ne_true), if_pos h2]

/-- C5: client.del signals exactly the entry the spec prescribes.
Under the panics-excluded preconditions (queue non-empty, head entry
has no connection, the reaped child is present), del succeeds, and:
the chosen entry is the next entry when the reaped child is the head
and a next entry exists, else the first entry of the reaped child
itself; the signal writes a release byte and closes when the chosen
entry has an open connection, else cancels its pending dial/read when a
cancellation handle is present; and the reaped child's entry is removed
from the queue. -/
theorem c5_limiter_release_signals_chosen_entry (q0 : QueueEntry)
    (rest : List QueueEntry) (zombie : Nat)
    (hhead : q0.conn = false)
    (hmem : zombie ∈ (q0 :: rest).map QueueEntry.pid) :
    ∃ chosen act q2,
      clientDel (q0 :: rest) zombie = some (act, q2)
      ∧ (if zombie = q0.pid ∧ 2 ≤ (q0 :: rest).length
          then rest.head? = some chosen
          else chosen.pid = zombie ∧ chosen ∈ q0 :: rest)
      ∧ act = mkDelAction chosen
      ∧ (chosen.conn = true → act = DelAction.releaseByteAndClose chosen.pid)
      ∧ (chosen.conn = false → chosen.cancel = true →
          act = DelAction.cancelDial chosen.pid)
      ∧ q2.map QueueEntry.pid = ((q0 :: rest).map QueueEntry.pid).erase zombie := by
  by_cases hc : zombie = q0.pid ∧ 2 ≤ (q0 :: rest).length
  · obtain ⟨r0, rest2, rfl⟩ : ∃ r0 rest2, rest = r0 :: rest2 := by
      cases rest with
      | nil => exfalso; have := hc.2; simp at this
      | cons r0 rest2 => exact ⟨r0, rest2, rfl⟩
    have herase : ((q0 :: r0 :: rest2).map QueueEntry.pid).erase zombie =
        r0.pid :: rest2.map QueueEntry.pid := by
      rw [List.map_cons, hc.1, List.erase_cons_head, List.map_cons]
    by_cases hrc : r0.conn = true
    · refine ⟨r0, mkDelAction r0, { r0 with conn := false } :: rest2, ?_, ?_, rfl, ?_, ?_, ?_⟩
      · simp only [clientDel]
        rw [if_neg (by rw [hhead]; exact Bool.false_ne_true), if_pos hc]
        have hset : (q0 :: r0 :: rest2).set 1 { r0 with conn := false } =
            q0 :: { r0 with conn := false } :: rest2 := rfl
        simp only [List.getElem?_cons_succ, List.getElem?_cons_zero, Option.map_some',
          if_pos hrc, hset]
        have hfind : findInQueue (q0 :: { r0 with conn := false } :: rest2) zombie =
            some (0, q0) := by
          rw [findInQueue, if_pos hc.1.symm]
        simp only [hfind, List.eraseIdx_cons_zero]
      · rw [if_pos hc]; rfl
      · exact fun h => mkDelAction_conn r0 h
      · exact fun h1 h2 => mkDelAction_cancel r0 h1 h2
      · rw [herase]; rfl
    · have hrc2 : r0.conn = false := by
        cases h : r0.conn
        · rfl
        · exact absurd h hrc
      refine ⟨r0, mkDelAction r0, r0 :: rest2, ?_, ?_, rfl, ?_, ?_, ?_⟩
      · simp only [clientDel]
        rw [if_neg (by rw [hhead]; exact Bool.false_ne_true), if_pos hc]
        simp only [List.getElem?_cons_succ, List.getElem?_cons_zero, Option.map_some',
          if_neg (by rw [hrc2]; exact Bool.false_ne_true :
            ¬ r0.conn = true)]
        have hfind : findInQueue (q0 :: r0 :: rest2) zombie = some (0, q0) := by
          rw [findInQueue, if_pos hc.1.symm]
        rw [hfind]
        rfl
      · rw [if_pos hc]; rfl
      · exact fun h => mkDelAction_conn r0 h
      · exact fun h1 h2 => mkDelAction_cancel r0 h1 h2
      · rw [herase]; rfl
  · have hsf := findInQueue_isSome (q0 :: rest) zombie hmem
    obtain ⟨ti, e, hfq⟩ : ∃ ti e, findInQueue (q0 :: rest) zombie = some (ti, e) := by
      cases h : findInQueue (q0 :: rest) zombie with
      | none => rw [h] at hsf; exact Bool.noConfusion hsf
      | some ie => exact ⟨ie.1, ie.2, rfl⟩
    obtain ⟨hepid, hget⟩ := findInQueue_some _ _ _ _ hfq
    have hq1pids : (if e.conn then (q0 :: rest).set ti { e with conn := false }
        else q0 :: rest).map QueueEntry.pid = (q0 :: rest).map QueueEntry.pid := by
      by_cases hec : e.conn = true
      · rw [if_pos hec]; exact map_pid_set _ _ _ _ hget rfl
      · rw [if_neg hec]
    have hmem1 : zombie ∈ (if e.conn then (q0 :: rest).set ti { e with conn := false }
        else q0 :: rest).map QueueEntry.pid := by rw [hq1pids]; exact hmem
    have hsf1 := findInQueue_isSome _ zombie hmem1
    obtain ⟨zi, e3, hfq1⟩ : ∃ zi e3,
        findInQueue (if e.conn then (q0 :: rest).set ti { e with conn := false }
          else q0 :: rest) zombie = some (zi, e3) := by
      cases h : findInQueue (if e.conn then (q0 :: rest).set ti { e with conn := false }
          else q0 :: rest) zombie with
      | none => rw [h] at hsf1; exact Bool.noConfusion hsf1
      | some ie => exact ⟨ie.1, ie.2, rfl⟩
    refine ⟨e, mkDelAction e,
      (if e.conn then (q0 :: rest).set ti { e with conn := false }
        else q0 :: rest).eraseIdx zi, ?_, ?_, rfl, ?_, ?_, ?_⟩
    · simp only [clientDel]
      rw [if_neg (by rw [hhead]; exact Bool.false_ne_true), if_neg hc]
      simp only [hfq, hfq1]
    · rw [if_neg hc]
      exact ⟨hepid, mem_of_getElem?_entry _ _ _ hget⟩
    · exact fun h => mkDelAction_conn e h
    · exact fun h1 h2 => mkDelAction_cancel e h1 h2
    · rw [findInQueue_erase _ _ _ _ hfq1, hq1pids]

theorem c5_limiter_release_signals_chosen_entry_witness :
    ∃ chosen act q2,
      clientDel [⟨10, false, false⟩, ⟨11, true, true⟩, ⟨12, true, true⟩] 10 =
        some (act, q2)
      ∧ (if 10 = (⟨10, false, false⟩ : QueueEntry).pid
            ∧ 2 ≤ ([⟨10, false, false⟩, ⟨11, true, true⟩, ⟨12, true, true⟩] :
                List QueueEntry).length
          then ([⟨11, true, true⟩, ⟨12, true, true⟩] : List QueueEntry).head? =
            some chosen
          else chosen.pid = 10 ∧ chosen ∈
            ([⟨10, false, false⟩, ⟨11, true, true⟩, ⟨12, true, true⟩] :
              List QueueEntry))
      ∧ act = mkDelAction chosen
      ∧ (chosen.conn = true → act = DelAction.releaseByteAndClose chosen.pid)
      ∧ (chosen.conn = false → chosen.cancel = true →
          act = DelAction.cancelDial chosen.pid)
      ∧ q2.map QueueEntry.pid =
          (([⟨10, false, false⟩, ⟨11, true, true⟩, ⟨12, true, true⟩] :
            List QueueEntry).map QueueEntry.pid).erase 10 :=
  c5_limiter_release_signals_chosen_entry ⟨10, false, false⟩
    [⟨11, true, true⟩, ⟨12, true, true⟩] 10 rfl (by decide)

/-! ## Buffer/live submission (src/runner.go, appendOrWrite)

Called by a reader with the bytes read, the fd they came from, the
reader's locally tracked shouldPassToParent flag, and its screen
pointer (nil outside interactive mode).  The whole body runs under
out.partsMutex.  out.shouldPassToParent.value is the authoritative
mode: true = Live, false = Buffered. -/

/-- OutputState: the fields of Output that appendOrWrite touches under
partsMutex: the authoritative shouldPassToParent.value flag and the
parts slab. -/
structure OutputState where
  shouldPassToParent : Bool
  parts : List Nat

/-- SubmitEffect: what one appendOrWrite call did.  screenAdvanced
holds the bytes handed to screen.Advance; wrote holds a direct
(fd, bytes) write to the parent; the returned OutputState carries the
(possibly extended) slab. -/
structure SubmitEffect where
  out : OutputState
  screenAdvanced : Option (List Nat)
  wrote : Option (Nat × List Nat)

/-- appendOrWrite: under the mutex, a mismatch between the caller's
assumed flag and the authoritative flag with a screen present routes
the bytes through screen.Advance (the slab no longer exists); otherwise
an authoritative Live flag writes the bytes straight to the parent's
matching fd, and an authoritative Buffered flag appends a chunk to the
slab. -/
def appendOrWrite (out : OutputState) (buf : List Nat) (dataFromFd : Nat)
    (assumedShouldPassToParent : Bool) (screenPresent : Bool) : SubmitEffect :=
  if out.shouldPassToParent ≠ assumedShouldPassToParent ∧ screenPresent then
    { out := out, screenAdvanced := some buf, wrote := none }
  else if out.shouldPassToParent then
    { out := out, screenAdvanced := none, wrote := some (dataFromFd, buf) }
  else
    { out := { out with parts := out.parts ++ encodeChunk dataFromFd buf },
      screenAdvanced := none, wrote := none }

/-- C4: the three routing cases of the buffer/live submission, all
under the per-child mutex.  When the caller's assumed flag agrees with
the authoritative flag: Live writes the bytes directly to the parent's
matching fd and leaves the slab alone; Buffered appends exactly one
chunk to the slab and writes nothing.  When the flags disagree and a
virtual screen is present, the bytes go through the screen's Advance,
and neither the slab nor the parent fd is touched. -/
theorem c4_append_or_write_routing (out : OutputState) (buf : List Nat)
    (dataFromFd : Nat) (assumed : Bool) (screenPresent : Bool) :
    (out.shouldPassToParent = assumed → out.shouldPassToParent = true →
      appendOrWrite out buf dataFromFd assumed screenPresent =
        { out := out, screenAdvanced := none, wrote := some (dataFromFd, buf) })
    ∧ (out.shouldPassToParent = assumed → out.shouldPassToParent = false →
      appendOrWrite out buf dataFromFd assumed screenPresent =
        { out := { out with parts := out.parts ++ encodeChunk dataFromFd buf },
          screenAdvanced := none, wrote := none })
    ∧ (out.shouldPassToParent ≠ assumed → screenPresent = true →
      appendOrWrite out buf dataFromFd assumed screenPresent =
        { out := out, screenAdvanced := some buf, wrote := none }) := by
  refine ⟨?_, ?_, ?_⟩
  · intro hagree hlive
    rw [appendOrWrite, if_neg (by rw [hagree]; simp), if_pos hlive]
  · intro hagree hbuf
    rw [appendOrWrite, if_neg (by rw [hagree]; simp)]
    rw [hbuf]
    simp
  · intro hdisagree hscreen
    rw [appendOrWrite, if_pos ⟨hdisagree, hscreen⟩]

theorem c4_append_or_write_routing_witness :
    (appendOrWrite ⟨true, []⟩ [104] 1 true false =
      { out := ⟨true, []⟩, screenAdvanced := none, wrote := some (1, [104]) })
    ∧ (appendOrWrite ⟨false, []⟩ [104] 1 false false =
      { out := ⟨false, encodeChunk 1 [104]⟩, screenAdvanced := none, wrote := none })
    ∧ (appendOrWrite ⟨true, []⟩ [104] 1 false true =
      { out := ⟨true, []⟩, screenAdvanced := some [104], wrote := none }) := by
  refine ⟨?_, ?_, ?_⟩
  · exact (c4_append_or_write_routing ⟨true, []⟩ [104] 1 true false).1 rfl rfl
  · have h := (c4_append_or_write_routing ⟨false, []⟩ [104] 1 false false).2.1 rfl rfl
    rw [h]
    rfl
  · exact (c4_append_or_write_routing ⟨true, []⟩ [104] 1 false true).2.2
      (by decide) rfl

/-! ## 2. Foreground Replay Scheduler (src/main.go)

displaySequentially ranges over the channel of ProcessResults in
submission order.  For each record it calls toForeground, which under
the partsMutex flushes the child's slab to the terminal (writeOut over
getNextChunk), switches the child to live mode, and then blocks on the
exitCode channel; the exit code is only sent after both reader streams
have closed, so every write the child makes directly to the terminal
after promotion lands before the next record is processed.  Afterwards
exitCode = max(exitCode, toForeground(...)); when the aggregate is
non-zero and keep-going-on-error is not set the loop stops (remaining
children get SIGTERM and produce no terminal output). -/

/-- ChildOutcome: one ProcessResult as the scheduler observes it.
parts is the Output.parts slab built while the child was buffered;
live is the sequence of (fd, bytes) writes its readers send straight to
the terminal between promotion and stream close; exit is the value read
from the exitCode channel. -/
structure ChildOutcome where
  parts : List Nat
  live : List (Nat × List Nat)
  exit : Int

/-- TraceWrite: one terminal write attributed to a child: (index of the
child in submission order, fd, bytes). -/
abbrev TraceWrite := Nat × Nat × List Nat

/-- displayLoop: the body of displaySequentially from child number idx
onward, carrying the aggregate exit code acc.  Per child: writeOut
drains the slab (a getNextChunk panic is none), the drained chunks and
then the live writes hit the terminal tagged with the child's index,
the aggregate becomes max(acc, exit), and without keep-going-on-error a
non-zero aggregate breaks the loop. -/
def displayLoop (keepGoing : Bool) : Nat → Int → List ChildOutcome →
    Option (Int × List TraceWrite)
  | _, acc, [] => some (acc, [])
  | idx, acc, p :: rest =>
    match drainSlab p.parts with
    | none => none
    | some chunks =>
      let block := (chunks ++ p.live).map (fun c => (idx, c.1, c.2))
      let acc2 := max acc p.exit
      if keepGoing = false ∧ acc2 ≠ 0 then some (acc2, block)
      else
        match displayLoop keepGoing (idx + 1) acc2 rest with
        | none => none
        | some (e, t) => some (e, block ++ t)

/-- displaySequentiallyModel: displaySequentially over the full ordered
list of spawned children, returning the final exit code and the
terminal write trace. -/
def displaySequentiallyModel (keepGoing : Bool) (procs : List ChildOutcome) :
    Option (Int × List TraceWrite) :=
  displayLoop keepGoing 0 0 procs

theorem block_tag_eq (idx : Nat) (l : List (Nat × List Nat)) :
    ∀ x ∈ l.map (fun c => ((idx, c.1, c.2) : TraceWrite)), x.1 = idx := by
  intro x hx
  rcases List.mem_map.mp hx with ⟨c, _, rfl⟩
  rfl

theorem block_pairwise (idx : Nat) (l : List (Nat × List Nat)) :
    (l.map (fun c => ((idx, c.1, c.2) : TraceWrite))).Pairwise
      (fun a b => a.1 ≤ b.1) := by
  induction l with
  | nil => exact List.Pairwise.nil
  | cons c l ih =>
    refine List.Pairwise.cons ?_ ih
    intro x hx
    rw [block_tag_eq idx l x hx]

theorem displayLoop_tags (keepGoing : Bool) :
    ∀ (procs : List ChildOutcome) (idx : Nat) (acc e : Int) (t : List TraceWrite),
    displayLoop keepGoing idx acc procs = some (e, t) →
    (∀ x ∈ t, idx ≤ x.1) ∧ t.Pairwise (fun a b => a.1 ≤ b.1) := by
  intro procs
  induction procs with
  | nil =>
    intro idx acc e t h
    simp only [displayLoop, Option.some.injEq, Prod.mk.injEq] at h
    rw [← h.2]
    exact ⟨fun x hx => absurd hx (List.not_mem_nil x), List.Pairwise.nil⟩
  | cons p rest ih =>
    intro idx acc e t h
    simp only [displayLoop] at h
    cases hdrain : drainSlab p.parts with
    | none => rw [hdrain] at h; cases h
    | some chunks =>
      rw [hdrain] at h
      simp only at h
      by_cases hbrk : keepGoing = false ∧ max acc p.exit ≠ 0
      · rw [if_pos hbrk] at h
        injection h with h
        injection h with h1 h2
        subst h2
        constructor
        · intro x hx
          rw [block_tag_eq idx _ x hx]
        · exact block_pairwise idx _
      · rw [if_neg hbrk] at h
        cases hrec : displayLoop keepGoing (idx + 1) (max acc p.exit) rest with
        | none => rw [hrec] at h; cases h
        | some et =>
          rw [hrec] at h
          obtain ⟨e2, t2⟩ := et
          injection h with h
          injection h with h1 h2
          subst h1 h2
          obtain ⟨htail, hpair⟩ := ih (idx + 1) (max acc p.exit) e2 t2 hrec
          constructor
          · intro x hx
            rcases List.mem_append.mp hx with hx | hx
            · rw [block_tag_eq idx _ x hx]
            · exact Nat.le_of_succ_le (htail x hx)
          · rw [List.pairwise_append]
            refine ⟨block_pairwise idx _, hpair, ?_⟩
            intro a ha b hb
            rw [block_tag_eq idx _ a ha]
            exact Nat.le_of_succ_le (htail b hb)

/-- C1: for every run consumed by the scheduler, the terminal write
trace is grouped by child in submission order: every write attributed
to an earlier-submitted child precedes every write attributed to a
later-submitted child, regardless of the children's own completion
order (which only shapes the parts/live contents, over which the
statement quantifies universally). -/
theorem c1_replay_in_submission_order (keepGoing : Bool)
    (procs : List ChildOutcome) (e : Int) (t : List TraceWrite)
    (h : displaySequentiallyModel keepGoing procs = some (e, t)) :
    t.Pairwise (fun a b => a.1 ≤ b.1) :=
  (displayLoop_tags keepGoing procs 0 0 e t h).2

theorem c1_replay_in_submission_order_witness :
    displaySequentiallyModel true
      [⟨appendAllChunks [(1, [97])], [(1, [98])], 0⟩,
       ⟨appendAllChunks [(2, [99])], [], 1⟩] =
      some (1, [(0, 1, [97]), (0, 1, [98]), (1, 2, [99])])
    ∧ List.Pairwise (fun a b => a.1 ≤ b.1)
        [((0 : Nat), (1 : Nat), [(97 : Nat)]), (0, 1, [98]), (1, 2, [99])] :=
  ⟨by decide,
   c1_replay_in_submission_order true
     [⟨appendAllChunks [(1, [97])], [(1, [98])], 0⟩,
      ⟨appendAllChunks [(2, [99])], [], 1⟩]
     1 [(0, 1, [97]), (0, 1, [98]), (1, 2, [99])] (by decide)⟩

theorem foldl_max_ge_init : ∀ (l : List Int) (a : Int), a ≤ l.foldl max a := by
  intro l
  induction l with
  | nil => intro a; exact le_refl a
  | cons x l ih =>
    intro a
    exact le_trans (le_max_left a x) (ih (max a x))

theorem foldl_max_ge_mem : ∀ (l : List Int) (a x : Int), x ∈ l → x ≤ l.foldl max a := by
  intro l
  induction l with
  | nil => intro a x hx; cases hx
  | cons y l ih =>
    intro a x hx
    rcases List.mem_cons.mp hx with rfl | hx
    · exact le_trans (le_max_right a x) (foldl_max_ge_init l (max a x))
    · exact ih (max a y) x hx

theorem foldl_max_mem : ∀ (l : List Int) (a : Int),
    l.foldl max a = a ∨ l.foldl max a ∈ l := by
  intro l
  induction l with
  | nil => intro a; exact Or.inl rfl
  | cons y l ih =>
    intro a
    rcases ih (max a y) with h | h
    · rcases max_choice a y with hm | hm
      · rw [List.foldl_cons, h, hm]
        exact Or.inl rfl
      · rw [List.foldl_cons, h, hm]
        exact Or.inr (List.mem_cons_self _ _)
    · exact Or.inr (List.mem_cons_of_mem _ h)

/-- processedChildren: the prefix of records the scheduler's loop
actually consumes, derived from the same break condition displayLoop
uses: each child in turn is handled, the aggregate becomes
max(aggregate, exit), and without keep-going-on-error a non-zero
aggregate ends the run after the current child (the remaining records
are SIGTERMed by waitForChildrenAfterAFailedOne, not processed). -/
def processedChildren (keepGoing : Bool) : Int → List ChildOutcome → List ChildOutcome
  | _, [] => []
  | acc, p :: rest =>
    let acc2 := max acc p.exit
    if keepGoing = false ∧ acc2 ≠ 0 then [p]
    else p :: processedChildren keepGoing acc2 rest

theorem processedChildren_keep_going :
    ∀ (procs : List ChildOutcome) (acc : Int),
    processedChildren true acc procs = procs := by
  intro procs
  induction procs with
  | nil => intro acc; rfl
  | cons p rest ih =>
    intro acc
    simp only [processedChildren]
    rw [if_neg (by simp), ih]

/-- The exit code displayLoop returns is the max-fold of the exit codes
of exactly the children it processes, over any keep-going setting. -/
theorem displayLoop_exit_processed (keepGoing : Bool) :
    ∀ (procs : List ChildOutcome) (idx : Nat) (acc e : Int) (t : List TraceWrite),
    displayLoop keepGoing idx acc procs = some (e, t) →
    e = ((processedChildren keepGoing acc procs).map ChildOutcome.exit).foldl max acc := by
  intro procs
  induction procs with
  | nil =>
    intro idx acc e t h
    simp only [displayLoop, Option.some.injEq, Prod.mk.injEq] at h
    rw [← h.1]
    rfl
  | cons p rest ih =>
    intro idx acc e t h
    simp only [displayLoop] at h
    cases hdrain : drainSlab p.parts with
    | none => rw [hdrain] at h; cases h
    | some chunks =>
      rw [hdrain] at h
      simp only at h
      simp only [processedChildren]
      by_cases hbrk : keepGoing = false ∧ max acc p.exit ≠ 0
      · rw [if_pos hbrk] at h
        rw [if_pos hbrk]
        injection h with h
        injection h with h1 h2
        rw [← h1]
        rfl
      · rw [if_neg hbrk] at h
        rw [if_neg hbrk]
        cases hrec : displayLoop keepGoing (idx + 1) (max acc p.exit) rest with
        | none => rw [hrec] at h; cases h
        | some et =>
          rw [hrec] at h
          obtain ⟨e2, t2⟩ := et
          injection h with h
          injection h with h1 h2
          subst h1
          rw [List.map_cons, List.foldl_cons]
          exact ih (idx + 1) (max acc p.exit) e2 t2 hrec

/-- C3: for every run, the final exit code equals the running maximum
max(aggregate, exit) folded from 0 over the exit codes of exactly the
children the scheduler processed — the consumed prefix, which a run
without keep-going-on-error cuts short after the first child that makes
the aggregate non-zero: the code dominates every processed child's exit
code and is either 0 or one of them; and with keep-going-on-error set
the processed children are all the spawned children, so the maximum
ranges over every spawned child. -/
theorem c3_exit_code_is_max (keepGoing : Bool) (procs : List ChildOutcome) (e : Int)
    (t : List TraceWrite)
    (h : displaySequentiallyModel keepGoing procs = some (e, t)) :
    e = ((processedChildren keepGoing 0 procs).map ChildOutcome.exit).foldl max 0
    ∧ (∀ p ∈ processedChildren keepGoing 0 procs, p.exit ≤ e)
    ∧ (e = 0 ∨ e ∈ (processedChildren keepGoing 0 procs).map ChildOutcome.exit)
    ∧ (keepGoing = true → processedChildren keepGoing 0 procs = procs) := by
  have he : e = ((processedChildren keepGoing 0 procs).map ChildOutcome.exit).foldl max 0 :=
    displayLoop_exit_processed keepGoing procs 0 0 e t h
  refine ⟨he, ?_, ?_, ?_⟩
  · intro p hp
    rw [he]
    exact foldl_max_ge_mem _ 0 p.exit (List.mem_map_of_mem _ hp)
  · rw [he]
    exact foldl_max_mem _ 0
  · intro hk
    subst hk
    exact processedChildren_keep_going procs 0

theorem c3_exit_code_is_max_witness :
    displaySequentiallyModel false
      [⟨appendAllChunks [(1, [120])], [], 2⟩, ⟨[], [], 1⟩] =
      some (2, [(0, 1, [120])])
    ∧ (2 : Int) =
        ((processedChildren false 0
          [⟨appendAllChunks [(1, [120])], [], 2⟩,
           (⟨[], [], 1⟩ : ChildOutcome)]).map ChildOutcome.exit).foldl max 0 :=
  ⟨by decide,
   (c3_exit_code_is_max false
     [⟨appendAllChunks [(1, [120])], [], 2⟩, ⟨[], [], 1⟩]
     2 [(0, 1, [120])] (by decide)).1⟩

/-! ## CSI dispatch (src/escapesequences.go)

The vte performer's CsiDispatch receives the parameter sets collected
by the parser (a list of parameter groups, each a list of uint16
subparameters), the intermediate bytes, and the final character, and
invokes the EscapeSequenceParserOutput callbacks. -/

/-- OutEvent: one callback on the EscapeSequenceParserOutput
interface. -/
inductive OutEvent where
  | relVert (howMany : Int)
  | relHoriz (howMany : Int)
  | absVert (y : Int)
  | absHoriz (x : Int)
  | deleteLeft (howMany : Int)
  | unhandledCsi
deriving DecidableEq

/-- numericParams: folds each parameter group digit-by-digit with
value = value*10 + digit, and — crucially — returns the single value 0
when the resulting list would be empty (an absent parameter becomes 0,
not 1). -/
def numericParams (input : List (List Nat)) : List Int :=
  let result := input.map (fun row => row.foldl (fun value digit => value * 10 + (digit : Int)) 0)
  if result = [] then [0] else result

/-- paramHead: the numericParams(params)[0] access; numericParams never
returns an empty list, so the Go index cannot panic and equals the
head. -/
def paramHead (params : List (List Nat)) : Int :=
  (numericParams params).headD 0

/-- getOrDefaultInt: util.go's getOrDefault for []int — the element at
the index, or the zero value when out of range. -/
def getOrDefaultInt (l : List Int) (i : Nat) : Int :=
  l.getD i 0

/-- csiDispatch: the CsiDispatch switch.  Note the CUP ('H') arm as
written in the source: it computes x from coords[0] and y from
coords[1], both 1-based-to-0-based, and then calls
outAbsoluteMoveCursorHorizontal twice — first with x, then with y —
and never outAbsoluteMoveCursorVertical. -/
def csiDispatch (params : List (List Nat)) (intermediates : List Nat) (final : Char) :
    List OutEvent :=
  if intermediates = [] ∧ final = 'A' then
    [OutEvent.relVert (-(paramHead params))]
  else if intermediates = [] ∧ final = 'B' then
    [OutEvent.relVert (paramHead params)]
  else if intermediates = [] ∧ final = 'C' then
    [OutEvent.relHoriz (paramHead params)]
  else if intermediates = [] ∧ final = 'D' then
    [OutEvent.relHoriz (-(paramHead params))]
  else if intermediates = [] ∧ final = 'H' then
    let coords := numericParams params
    let x := getOrDefaultInt coords 0 - 1
    let y := getOrDefaultInt coords 1 - 1
    [OutEvent.absHoriz x, OutEvent.absHoriz y]
  else if intermediates = [] ∧ (final = 'G' ∨ final = '\x60') then
    [OutEvent.absHoriz (paramHead params - 1)]
  else if intermediates = [] ∧ final = 'd' then
    [OutEvent.absVert (paramHead params - 1)]
  else
    [OutEvent.unhandledCsi]

/-- C6: evaluation of the dispatcher at the failing inputs.  For
CUU/CUD/CUF/CUB arriving with no numeric parameter (params empty, or a
single zero group as the vte parser may deliver), numericParams
defaults to 0, so the performed relative move has distance 0 — the
cursor does not move — whereas the claim (and the VT100 semantics the
source's own comments cite) require the default distance 1. -/
theorem c6_csi_default_parameter_is_zero_not_one :
    csiDispatch [] [] 'A' = [OutEvent.relVert 0]
    ∧ csiDispatch [[0]] [] 'A' = [OutEvent.relVert 0]
    ∧ csiDispatch [] [] 'B' = [OutEvent.relVert 0]
    ∧ csiDispatch [] [] 'C' = [OutEvent.relHoriz 0]
    ∧ csiDispatch [] [] 'D' = [OutEvent.relHoriz 0]
    ∧ [OutEvent.relVert 0] ≠ [OutEvent.relVert 1] := by
  refine ⟨rfl, rfl, rfl, rfl, rfl, ?_⟩
  decide

/-- C7: evaluation of the CUP arm at row 2, column 3 (CSI 2;3H).  The
claim requires the vertical position to become row - 1 = 1 and the
horizontal position column - 1 = 2; the code instead emits two
horizontal moves — outAbsoluteMoveCursorHorizontal(row - 1) followed by
outAbsoluteMoveCursorHorizontal(column - 1) — and no vertical move at
all. -/
theorem c7_csi_cup_never_moves_vertically :
    csiDispatch [[2], [3]] [] 'H' = [OutEvent.absHoriz 1, OutEvent.absHoriz 2]
    ∧ (csiDispatch [[2], [3]] [] 'H').all
        (fun e => match e with
          | OutEvent.absVert _ => false
          | _ => true) = true := by
  exact ⟨rfl, rfl⟩

/-! ## Limiter server bring-up (src/unnamed/part_000) and the -P
validation in parseArgs (src/args.go)

main calls parseArgs before anything else; createLimitServer (reached
only in the root invocation, when the socket environment variable is
absent) spawns flMaxProcesses - 1 serveClients attendants with
acceptNewTasks = true and, if flMaxProcesses == 1, one extra attendant
with acceptNewTasks = false, which accepts connections and reads the
release byte but never writes the grant byte. -/

/-- parseArgsMaxProcesses: parseArgs rejects -P values of at most 1
("-P (--max-concurrent) cannot be less than 2") by calling usage(),
which exits the process (none); any larger value stands. -/
def parseArgsMaxProcesses (p : Int) : Option Int :=
  if p ≤ 1 then none else some p

/-- createLimitServerAttendants: the acceptNewTasks flag of every
serveClients goroutine createLimitServer would start for a given
flMaxProcesses value. -/
def createLimitServerAttendants (p : Int) : List Bool :=
  List.replicate (p - 1).toNat true ++ (if p = 1 then [false] else [])

/-- serveClientsGrants: how many grant bytes (0x01) one serveClients
attendant writes while serving the given number of accepted
connections: one per connection when acceptNewTasks, none otherwise. -/
def serveClientsGrants (acceptNewTasks : Bool) : Nat → Nat
  | 0 => 0
  | n + 1 => (if acceptNewTasks then 1 else 0) + serveClientsGrants acceptNewTasks n

/-- rootInvocationAttendants: the attendants the root invocation ends
up running for a given -P: none at all when parseArgs rejects the
value, otherwise those of createLimitServer. -/
def rootInvocationAttendants (p : Int) : Option (List Bool) :=
  (parseArgsMaxProcesses p).map createLimitServerAttendants

/-- C8 (counterexample): with P = 1 the root invocation does not run
any attendant: parseArgs rejects -P 1 with a usage error and exits
before createLimitServer is ever reached, so the claim's premise that
"the root invocation still runs one attendant" fails on the current
code. -/
theorem c8_p_equals_one_rejected_counterexample :
    rootInvocationAttendants 1 = none := rfl

/-- C8 (amended): -P 1 is rejected by argument validation, so the
never-granting attendant is unreachable from the command line; the
code for it is still present: had createLimitServer run with
flMaxProcesses = 1 it would start exactly one attendant with
acceptNewTasks = false, and such an attendant writes no grant byte to
any client no matter how many connections it serves, so every
descendant's wait would block until cancelled or released. -/
theorem c8_p_equals_one_attendant_never_grants :
    rootInvocationAttendants 1 = none
    ∧ createLimitServerAttendants 1 = [false]
    ∧ ∀ connections, serveClientsGrants false connections = 0 := by
  refine ⟨rfl, by decide, ?_⟩
  intro connections
  induction connections with
  | zero => rfl
  | succ n ih => rw [serveClientsGrants, ih]; rfl

/-! ## SGR attribute lists of the virtual terminal screen
(src/terminalscreen/line.go, SGR part, and src/terminalscreen/screen.go)

SelectGraphicRenditionAttribute is the [][]uint16 parameter block of
one SGR escape sequence; SGRList is the list of such attributes carried
by the screen (currentSGRs) and by each Character (via addSGR, which
has the same clear-or-add structure as outSelectGraphicRenditionAttribute).

addToSGRAttributeList is the Go method:

  if len(s) > 0 && len(s[0]) > 0 \x7b
    for i, sgr := range *sgrAttributeList \x7b
      if len(sgr) > 0 && len(sgr[0]) > 0 && sgr[0][0] == s[0][0] \x7b
        *sgrAttributeList = append((*sgrAttributeList)[:i], (*sgrAttributeList)[i+1:]...)
      \x7d
    \x7d
  \x7d
  *sgrAttributeList = append(*sgrAttributeList, s)

The range expression is evaluated once, so the loop runs over the
ORIGINAL length and reads elements through the original slice header,
which shares its backing array with the in-place append: after a
deletion the elements shift left under the iterating index and the
last position keeps a stale copy.  The embedding models the backing
array (always of the original length) plus the current slice length
explicitly; dedupLoop carries (remaining iterations, index, backing,
current length). -/

/-- SGRAttr: one SelectGraphicRenditionAttribute, [][]uint16. -/
abbrev SGRAttr := List (List Nat)

/-- sgrHasLeading: len(s) > 0 && len(s[0]) > 0. -/
def sgrHasLeading : SGRAttr → Bool
  | (_ :: _) :: _ => true
  | _ => false

/-- sgrLeadingCode: s[0][0] (only meaningful when sgrHasLeading). -/
def sgrLeadingCode (s : SGRAttr) : Nat := (s.headD []).headD 0

/-- sgrMatches: the loop's guard — the entry has a leading code and it
equals the code being added. -/
def sgrMatches (code : Nat) (t : SGRAttr) : Bool :=
  sgrHasLeading t && (sgrLeadingCode t == code)

/-- sliceDeleteAt: the in-place
append((*list)[:i], (*list)[i+1:]...) on a backing array b whose
current slice length is n.  (*list)[i+1:] panics when i + 1 exceeds n
(none).  Otherwise positions i .. n-2 receive the old i+1 .. n-1,
positions from n-1 on keep their old (now stale) values, and the new
current length is n - 1. -/
def sliceDeleteAt (b : List SGRAttr) (n i : Nat) : Option (List SGRAttr) :=
  if n < i + 1 then none
  else some (b.take i ++ (b.drop (i + 1)).take (n - i - 1) ++ b.drop (n - 1))

/-- dedupLoop: the range loop.  r counts the remaining iterations (the
range length was fixed at the original list length), i is the loop
index, b the backing array and n the current slice length. -/
def dedupLoop (code : Nat) : Nat → Nat → List SGRAttr → Nat → Option (List SGRAttr × Nat)
  | 0, _, b, n => some (b, n)
  | r + 1, i, b, n =>
    if sgrMatches code (b.getD i []) then
      match sliceDeleteAt b n i with
      | none => none
      | some b2 => dedupLoop code r (i + 1) b2 (n - 1)
    else dedupLoop code r (i + 1) b n

/-- addToSGRAttributeList: run the dedup loop when s has a leading
code, then append s; the resulting slice value is the first n elements
of the final backing array plus s. -/
def addToSGRAttributeList (s : SGRAttr) (list : List SGRAttr) : Option (List SGRAttr) :=
  if sgrHasLeading s then
    match dedupLoop (sgrLeadingCode s) list.length 0 list list.length with
    | none => none
    | some bn => some (bn.1.take bn.2 ++ [s])
  else some (list ++ [s])

/-- isUnsetAll: an empty attribute or the single parameter 0. -/
def isUnsetAll : SGRAttr → Bool
  | [] => true
  | [[c]] => c == 0
  | _ => false

/-- outSelectGraphicRenditionAttribute: reset empties the current list,
anything else goes through addToSGRAttributeList.  Character.addSGR in
line.go has exactly the same structure for the character-attached
list. -/
def outSelectGraphicRenditionAttribute (sgr : SGRAttr) (current : List SGRAttr) :
    Option (List SGRAttr) :=
  if isUnsetAll sgr then some [] else addToSGRAttributeList sgr current

/-- applySGRAdds: a whole sequence of SGR attribute additions starting
from the empty list (the screen's initial currentSGRs). -/
def applySGRAdds (adds : List SGRAttr) : Option (List SGRAttr) :=
  adds.foldl (fun acc s => acc.bind (outSelectGraphicRenditionAttribute s)) (some [])

/-- countLeading: how many entries of the list match the given leading
code. -/
def countLeading (code : Nat) (l : List SGRAttr) : Nat :=
  (l.filter (fun t => sgrMatches code t)).length

theorem sgrMatches_nil (code : Nat) : sgrMatches code [] = false := rfl

theorem mem_of_getElem?_some {α : Type} : ∀ (l : List α) (i : Nat) (x : α),
    l[i]? = some x → x ∈ l := by
  intro l
  induction l with
  | nil => intro i x h; simp at h
  | cons a l ih =>
    intro i x h
    cases i with
    | zero =>
      rw [List.getElem?_cons_zero] at h
      injection h with h
      exact h ▸ List.mem_cons_self _ _
    | succ n =>
      rw [List.getElem?_cons_succ] at h
      exact List.mem_cons_of_mem _ (ih n x h)

theorem sgrMatches_getD_false (code : Nat) (b : List SGRAttr) (i : Nat)
    (h : ∀ t ∈ b, sgrMatches code t = false) :
    sgrMatches code (b.getD i []) = false := by
  rw [List.getD_eq_getElem?_getD]
  cases hg : b[i]? with
  | none => rfl
  | some x => exact h x (mem_of_getElem?_some b i x hg)

/-- Iterations that only read non-matching entries (in range or the
stale/default reads beyond it) leave backing and length untouched. -/
theorem dedupLoop_no_match_range (code : Nat) : ∀ (r i : Nat) (b : List SGRAttr) (n : Nat),
    (∀ j, i ≤ j → j < i + r → sgrMatches code (b.getD j []) = false) →
    dedupLoop code r i b n = some (b, n) := by
  intro r
  induction r with
  | zero => intro i b n _; rfl
  | succ r ih =>
    intro i b n h
    rw [dedupLoop]
    rw [h i (le_refl i) (by omega)]
    simp only [Bool.false_eq_true, if_false]
    exact ih (i + 1) b n (fun j hj1 hj2 => h j (by omega) (by omega))

theorem dedupLoop_all_no_match (code : Nat) (r i : Nat) (b : List SGRAttr) (n : Nat)
    (h : ∀ t ∈ b, sgrMatches code t = false) :
    dedupLoop code r i b n = some (b, n) :=
  dedupLoop_no_match_range code r i b n
    (fun j _ _ => sgrMatches_getD_false code b j h)

/-- Deleting at a shifted index in a backing array with an extra head
commutes with consing the head. -/
theorem sliceDeleteAt_cons (a : SGRAttr) (b : List SGRAttr) (n i : Nat) :
    sliceDeleteAt (a :: b) (n + 1) (i + 1) =
      (sliceDeleteAt b n i).map (fun b2 => a :: b2) := by
  rw [sliceDeleteAt, sliceDeleteAt]
  by_cases hni : n < i + 1
  · rw [if_pos (by omega), if_pos hni]
    rfl
  · obtain ⟨m, rfl⟩ : ∃ m, n = m + 1 := ⟨n - 1, by omega⟩
    rw [if_neg (by omega), if_neg hni, Option.map_some']
    rw [show m + 1 + 1 - (i + 1) - 1 = m + 1 - i - 1 from by omega]
    rw [show m + 1 + 1 - 1 = m + 1 from rfl]
    rw [List.take_succ_cons, List.drop_succ_cons, List.drop_succ_cons]
    rfl

/-- Running the loop over a backing array with an extra untouched head
(index and length both shifted by one) is the same loop on the tail,
with the head re-attached. -/
theorem dedupLoop_shift (code : Nat) : ∀ (r i : Nat) (a : SGRAttr) (b : List SGRAttr) (n : Nat),
    dedupLoop code r (i + 1) (a :: b) (n + 1) =
      (dedupLoop code r i b n).map (fun bn => (a :: bn.1, bn.2 + 1)) := by
  intro r
  induction r with
  | zero => intro i a b n; rfl
  | succ r ih =>
    intro i a b n
    rw [dedupLoop, dedupLoop, List.getD_cons_succ]
    by_cases hm : sgrMatches code (b.getD i []) = true
    · rw [if_pos hm, if_pos hm, sliceDeleteAt_cons]
      cases hd : sliceDeleteAt b n i with
      | none => rfl
      | some b2 =>
        have hn : i + 1 ≤ n := by
          by_contra hc
          rw [sliceDeleteAt, if_pos (by omega)] at hd
          cases hd
        obtain ⟨m, rfl⟩ : ∃ m, n = m + 1 := ⟨n - 1, by omega⟩
        simp only [Option.map_some']
        rw [show m + 1 + 1 - 1 = m + 1 from rfl, show m + 1 - 1 = m from rfl]
        exact ih (i + 1) a b2 m
    · rw [if_neg hm, if_neg hm]
      exact ih (i + 1) a b n

/-- Running the whole loop over a backing array holding exactly one
matching entry: the match is deleted in place (elements after it shift
left, the last backing slot keeps a stale non-matching copy), the
resulting current length drops by one, and the current slice value is
the original list without the match. -/
theorem dedupLoop_single (code : Nat) :
    ∀ (l1 : List SGRAttr) (m : SGRAttr) (l2 : List SGRAttr),
    (∀ t ∈ l1, sgrMatches code t = false) →
    sgrMatches code m = true →
    (∀ t ∈ l2, sgrMatches code t = false) →
    ∃ b2, dedupLoop code (l1 ++ m :: l2).length 0 (l1 ++ m :: l2) (l1 ++ m :: l2).length =
        some (b2, l1.length + l2.length)
      ∧ b2.take (l1.length + l2.length) = l1 ++ l2 := by
  intro l1
  induction l1 with
  | nil =>
    intro m l2 _ hm hl2
    simp only [List.nil_append, List.length_nil, Nat.zero_add, List.length_cons]
    rw [dedupLoop, List.getD_cons_zero, if_pos hm]
    have hdel : sliceDeleteAt (m :: l2) (l2.length + 1) 0 =
        some (l2 ++ (m :: l2).drop l2.length) := by
      rw [sliceDeleteAt, if_neg (by omega)]
      rw [show l2.length + 1 - 0 - 1 = l2.length from by omega]
      rw [show l2.length + 1 - 1 = l2.length from rfl]
      simp
    have hreads : ∀ j, 1 ≤ j → j < 1 + l2.length →
        sgrMatches code ((l2 ++ (m :: l2).drop l2.length).getD j []) = false := by
      intro j hj1 hj2
      by_cases hjl : j < l2.length
      · rw [List.getD_eq_getElem?_getD, List.getElem?_append, if_pos hjl]
        cases hg : l2[j]? with
        | none => rfl
        | some x => exact hl2 x (mem_of_getElem?_some _ _ _ hg)
      · have hj : j = l2.length := by omega
        subst hj
        rw [List.getD_eq_getElem?_getD, List.getElem?_append,
          if_neg (by omega), Nat.sub_self]
        obtain ⟨c, l2x, rfl⟩ : ∃ c l2x, l2 = c :: l2x := by
          cases l2 with
          | nil => simp at hj1
          | cons c l2x => exact ⟨c, l2x, rfl⟩
        rw [show (c :: l2x).length = l2x.length + 1 from rfl, List.drop_succ_cons]
        cases hg : ((c :: l2x).drop l2x.length)[0]? with
        | none => rfl
        | some x =>
          have hx : x ∈ (c :: l2x).drop l2x.length := mem_of_getElem?_some _ _ _ hg
          exact hl2 x (List.drop_subset _ _ hx)
    simp only [hdel]
    rw [dedupLoop_no_match_range code l2.length (0 + 1)
      (l2 ++ (m :: l2).drop l2.length) (l2.length + 1 - 1)
      (fun j h1 h2 => hreads j (by omega) (by omega))]
    refine ⟨l2 ++ (m :: l2).drop l2.length, rfl, ?_⟩
    exact List.take_left' rfl
  | cons a l1 ih =>
    intro m l2 h1 hm hl2
    simp only [List.cons_append, List.length_cons]
    rw [dedupLoop, List.getD_cons_zero, h1 a (List.mem_cons_self _ _)]
    simp only [Bool.false_eq_true, if_false]
    rw [dedupLoop_shift]
    obtain ⟨b2, hrun, htake⟩ :=
      ih m l2 (fun t ht => h1 t (List.mem_cons_of_mem _ ht)) hm hl2
    rw [hrun, Option.map_some']
    refine ⟨a :: b2, ?_, ?_⟩
    · rw [show l1.length + l2.length + 1 = l1.length + 1 + l2.length from by omega]
    · rw [show l1.length + 1 + l2.length = l1.length + l2.length + 1 from by omega]
      rw [List.take_succ_cons, htake]

/-- addToSGRAttributeList on a list holding at most one entry with the
added attribute's leading code: the earlier matching entry (if any) is
removed and the new attribute is appended. -/
theorem addToSGRAttributeList_spec (s : SGRAttr) (l : List SGRAttr)
    (hs : sgrHasLeading s = true)
    (hinv : countLeading (sgrLeadingCode s) l ≤ 1) :
    addToSGRAttributeList s l =
      some (l.filter (fun t => !(sgrMatches (sgrLeadingCode s) t)) ++ [s]) := by
  rw [addToSGRAttributeList, if_pos hs]
  cases hf : l.filter (fun t => sgrMatches (sgrLeadingCode s) t) with
  | nil =>
    have hnm : ∀ t ∈ l, sgrMatches (sgrLeadingCode s) t = false := by
      intro t ht
      have := List.filter_eq_nil_iff.mp hf t ht
      simpa using this
    rw [dedupLoop_all_no_match _ _ _ _ _ hnm]
    have hfil : l.filter (fun t => !(sgrMatches (sgrLeadingCode s) t)) = l := by
      rw [List.filter_eq_self]
      intro t ht
      rw [hnm t ht]
      rfl
    rw [hfil]
    simp
  | cons mm tail =>
    have htail : tail = [] := by
      rw [countLeading, hf] at hinv
      simp at hinv
      exact hinv
    subst htail
    obtain ⟨l1, l2, rfl, h1, h2, h3⟩ := List.filter_eq_cons_iff.mp hf
    have h1f : ∀ t ∈ l1, sgrMatches (sgrLeadingCode s) t = false := by
      intro t ht
      have := h1 t ht
      simpa using this
    have h2f : ∀ t ∈ l2, sgrMatches (sgrLeadingCode s) t = false := by
      intro t ht
      have := List.filter_eq_nil_iff.mp h3 t ht
      simpa using this
    obtain ⟨b2, hrun, htake⟩ := dedupLoop_single (sgrLeadingCode s) l1 mm l2 h1f h2 h2f
    simp only [hrun]
    rw [htake]
    have hfil : (l1 ++ mm :: l2).filter (fun t => !(sgrMatches (sgrLeadingCode s) t)) =
        l1 ++ l2 := by
      rw [List.filter_append, List.filter_cons]
      rw [show (!(sgrMatches (sgrLeadingCode s) mm)) = false from by rw [h2]; rfl]
      have hl1 : l1.filter (fun t => !(sgrMatches (sgrLeadingCode s) t)) = l1 := by
        rw [List.filter_eq_self]
        intro t ht
        rw [h1f t ht]
        rfl
      have hl2 : l2.filter (fun t => !(sgrMatches (sgrLeadingCode s) t)) = l2 := by
        rw [List.filter_eq_self]
        intro t ht
        rw [h2f t ht]
        rfl
      rw [hl1, hl2]
      simp
    rw [hfil]

/-- One outSelectGraphicRenditionAttribute step preserves totality and
the at-most-one-entry-per-leading-code invariant. -/
theorem outSGR_step (s : SGRAttr) (l : List SGRAttr)
    (hinv : ∀ code, countLeading code l ≤ 1) :
    ∃ l2, outSelectGraphicRenditionAttribute s l = some l2
      ∧ ∀ code, countLeading code l2 ≤ 1 := by
  rw [outSelectGraphicRenditionAttribute]
  by_cases hu : isUnsetAll s = true
  · exact ⟨[], by rw [if_pos hu], by intro code; rw [countLeading]; simp⟩
  · rw [if_neg hu]
    by_cases hs : sgrHasLeading s = true
    · refine ⟨l.filter (fun t => !(sgrMatches (sgrLeadingCode s) t)) ++ [s],
        addToSGRAttributeList_spec s l hs (hinv _), ?_⟩
      intro code
      rw [countLeading, List.filter_append, List.length_append]
      by_cases hc : code = sgrLeadingCode s
      · rw [hc]
        have hzero : (l.filter (fun t => !(sgrMatches (sgrLeadingCode s) t))).filter
            (fun t => sgrMatches (sgrLeadingCode s) t) = [] := by
          rw [List.filter_eq_nil_iff]
          intro t ht
          have hmem := List.of_mem_filter ht
          simp at hmem
          simp [hmem]
        rw [hzero]
        have hsing : [s].filter (fun t => sgrMatches (sgrLeadingCode s) t) = [s] := by
          rw [List.filter_eq_self]
          intro t ht
          rw [List.mem_singleton.mp ht]
          rw [sgrMatches, hs]
          simp
        rw [hsing]
        simp
      · have hle : ((l.filter (fun t => !(sgrMatches (sgrLeadingCode s) t))).filter
            (fun t => sgrMatches code t)).length ≤ countLeading code l := by
          rw [countLeading]
          exact ((List.filter_sublist l).filter _).length_le
        have hone : [s].filter (fun t => sgrMatches code t) = [] := by
          rw [List.filter_eq_nil_iff]
          intro t ht
          rw [List.mem_singleton.mp ht]
          rw [sgrMatches, hs]
          simp
          intro hcode
          exact absurd hcode.symm hc
        rw [hone]
        have := hinv code
        simp only [List.length_nil]
        omega
    · have hsf : sgrHasLeading s = false := by
        cases h : sgrHasLeading s
        · rfl
        · exact absurd h hs
      refine ⟨l ++ [s], by rw [addToSGRAttributeList, hsf]; rfl, ?_⟩
      intro code
      rw [countLeading, List.filter_append, List.length_append]
      have hone : [s].filter (fun t => sgrMatches code t) = [] := by
        rw [List.filter_eq_nil_iff]
        intro t ht
        rw [List.mem_singleton.mp ht]
        rw [sgrMatches, hsf]
        simp
      rw [hone]
      have := hinv code
      rw [countLeading] at this
      simp only [List.length_nil]
      omega

theorem applySGRAdds_inv : ∀ (adds : List SGRAttr) (l0 : List SGRAttr),
    (∀ code, countLeading code l0 ≤ 1) →
    ∃ l, adds.foldl (fun acc s => acc.bind (outSelectGraphicRenditionAttribute s))
        (some l0) = some l
      ∧ ∀ code, countLeading code l ≤ 1 := by
  intro adds
  induction adds with
  | nil => intro l0 h0; exact ⟨l0, rfl, h0⟩
  | cons s adds ih =>
    intro l0 h0
    obtain ⟨l1, hstep, hinv1⟩ := outSGR_step s l0 h0
    rw [List.foldl_cons]
    obtain ⟨l, hrun, hinv⟩ := ih l1 hinv1
    refine ⟨l, ?_, hinv⟩
    rw [show (some l0).bind (outSelectGraphicRenditionAttribute s) = some l1 from hstep]
    exact hrun

/-- C10: for every sequence of SGR attribute additions applied to the
screen's (or, via the identically structured Character.addSGR, a
character's) SGR list starting empty, the additions never panic and the
resulting list holds at most one attribute per leading code; adding an
attribute with a leading code removes the earlier entry with that code
(when present) before appending the new one; and a reset attribute
(empty, or the single parameter 0) empties the list. -/
theorem c10_sgr_at_most_one_attribute_per_code (adds : List SGRAttr) (s : SGRAttr)
    (l : List SGRAttr) (h : applySGRAdds adds = some l) :
    (∀ code, countLeading code l ≤ 1)
    ∧ (sgrHasLeading s = true →
        addToSGRAttributeList s l =
          some (l.filter (fun t => !(sgrMatches (sgrLeadingCode s) t)) ++ [s]))
    ∧ (isUnsetAll s = true → outSelectGraphicRenditionAttribute s l = some []) := by
  obtain ⟨l2, hrun, hinv⟩ := applySGRAdds_inv adds []
    (by intro code; rw [countLeading]; simp)
  rw [applySGRAdds] at h
  rw [h] at hrun
  injection hrun with hrun
  subst hrun
  refine ⟨hinv, ?_, ?_⟩
  · intro hs
    exact addToSGRAttributeList_spec s l hs (hinv _)
  · intro hu
    rw [outSelectGraphicRenditionAttribute, if_pos hu]

theorem c10_sgr_at_most_one_attribute_per_code_witness :
    applySGRAdds [[[31]], [[1]], [[31], [5]]] = some [[[1]], [[31], [5]]]
    ∧ sgrHasLeading [[31]] = true
    ∧ addToSGRAttributeList [[31]] [[[1]], [[31], [5]]] =
        some (([[[1]], [[31], [5]]] : List SGRAttr).filter
          (fun t => !(sgrMatches (sgrLeadingCode [[31]]) t)) ++ [[[31]]]) :=
  ⟨by decide, by decide,
   (c10_sgr_at_most_one_attribute_per_code [[[31]], [[1]], [[31], [5]]] [[31]]
     [[[1]], [[31], [5]]] (by decide)).2.1 (by decide)⟩
